import Mathlib

/-!
Verification of the Doc2Speech pipeline (`src/doc2speech.py`, `src/epub_handler.py`).

Text is modelled as `List Char`.  Python's `re` whitespace class `\s` and
`str.strip()` are modelled over the ASCII whitespace characters, which are the
only whitespace characters the claims exercise.
-/

/-- Python's whitespace test (the `\s` class and `str.strip()`), restricted to
ASCII whitespace characters. -/
def pyIsSpace (c : Char) : Bool :=
  c = ' ' || c = '\t' || c = '\n' || c = '\x0d' || c = '\x0b' || c = '\x0c'

/-- The sentence terminators of the chunker's regex `(?<=[.!?])\s+`. -/
def isSentenceTerm (c : Char) : Bool :=
  c = '.' || c = '!' || c = '?'

/-- Python `str.strip()`: remove leading and trailing whitespace. -/
def pyStrip (l : List Char) : List Char :=
  ((l.dropWhile pyIsSpace).reverse.dropWhile pyIsSpace).reverse

/-- The largest index `i < n` with `p i = true`, if any (`str.rfind`-style search). -/
def lastMatchIdx (p : Nat → Bool) (n : Nat) : Option Nat :=
  ((List.range n).filter p).getLast?

/-- Start position of a match of `(?<=[.!?])\s+` inside the window `w`:
index `i ≥ 1` whose character is whitespace and is preceded by a sentence
terminator.  These are exactly the values `m.start(0)` produced by
`pattern.finditer` in `split_text`. -/
def isBoundary (w : List Char) (i : Nat) : Bool :=
  1 ≤ i &&
    (match w.get? (i - 1), w.get? i with
     | some a, some b => isSentenceTerm a && pyIsSpace b
     | _, _ => false)

/-- The start of the last regex match in the window: the `split_index` kept by
the `for m in match` loop of `split_text`. -/
def lastSentenceSplit (w : List Char) : Option Nat :=
  lastMatchIdx (isBoundary w) w.length

/-- `text.rfind(' ', start, start+chunk_size)` relative to the window: the last
index of a space character. -/
def lastSpaceIdx (w : List Char) : Option Nat :=
  lastMatchIdx (fun i => w.get? i = some ' ') w.length

/-- The while-loop of `split_text` in `src/doc2speech.py`.  `rest` is the
remaining text `text[start:]`; the extra fuel argument bounds the number of
iterations (`start` strictly advances whenever `chunk_size ≥ 1`, so fuel
`text.length` is enough; see the termination theorem). -/
def splitTextAux (chunkSize : Nat) : Nat → List Char → List (List Char)
  | 0, _ => []
  | _ + 1, [] => []
  | fuel + 1, a :: t =>
    if (a :: t).length ≤ chunkSize then [a :: t]
    else
      match lastSentenceSplit ((a :: t).take chunkSize) with
      | some i =>
          pyStrip ((a :: t).take i) :: splitTextAux chunkSize fuel ((a :: t).drop (i + 1))
      | none =>
          match lastSpaceIdx ((a :: t).take chunkSize) with
          | some j =>
              pyStrip ((a :: t).take j) :: splitTextAux chunkSize fuel ((a :: t).drop (j + 1))
          | none =>
              pyStrip ((a :: t).take chunkSize) ::
                splitTextAux chunkSize fuel ((a :: t).drop chunkSize)

/-- `split_text(text, chunk_size)` from `src/doc2speech.py`: run the scanning
loop, then drop empty chunks (`[chunk for chunk in chunks if chunk]`). -/
def split_text (text : List Char) (chunkSize : Nat) : List (List Char) :=
  (splitTextAux chunkSize text.length text).filter (fun c => !c.isEmpty)

/-- `calculate_cost(text_chunks, price_per_1k_chars)` from `src/doc2speech.py`,
with the Python float arithmetic modelled over the rationals. -/
def calculate_cost (text_chunks : List (List Char)) (price_per_1k_chars : ℚ) : ℚ :=
  ((text_chunks.map List.length).sum : ℚ) * price_per_1k_chars / 1000

/-- The spec's cost contract `estimate(total_chars, price_per_1k) -> cost`,
`cost = total_chars * price_per_1k / 1000`, over the rationals. -/
def estimate (total_chars : Nat) (price_per_1k : ℚ) : ℚ :=
  (total_chars : ℚ) * price_per_1k / 1000

/-- Python `str.lower()`, restricted to ASCII letters. -/
def pyLower (s : List Char) : List Char :=
  s.map Char.toLower

/-- `user_confirmation()` from `src/doc2speech.py`, with the interactive input
stream made explicit: each element is one line typed at the prompt; `none`
means the stream was exhausted without an accepted answer. -/
def user_confirmation : List (List Char) → Option Bool
  | [] => none
  | s :: rest =>
    if pyStrip (pyLower s) ∈ [[], "yes".data, "y".data] then some true
    else if pyStrip (pyLower s) ∈ ["no".data, "n".data] then some false
    else user_confirmation rest

/-- Instrumented version of the scanning loop of `split_text`: alongside each
emitted chunk it records the single whitespace character, if any, that the
loop consumed as the boundary delimiter right after the chunk
(`start = split_index + 1` and `start = split_at_space + 1` each skip one
character); the forced cut and the final chunk consume none. -/
def splitTextAuxD (chunkSize : Nat) : Nat → List Char → List (List Char × Option Char)
  | 0, _ => []
  | _ + 1, [] => []
  | fuel + 1, a :: t =>
    if (a :: t).length ≤ chunkSize then [(a :: t, none)]
    else
      match lastSentenceSplit ((a :: t).take chunkSize) with
      | some i =>
          (pyStrip ((a :: t).take i), (a :: t).get? i) ::
            splitTextAuxD chunkSize fuel ((a :: t).drop (i + 1))
      | none =>
          match lastSpaceIdx ((a :: t).take chunkSize) with
          | some j =>
              (pyStrip ((a :: t).take j), (a :: t).get? j) ::
                splitTextAuxD chunkSize fuel ((a :: t).drop (j + 1))
          | none =>
              (pyStrip ((a :: t).take chunkSize), none) ::
                splitTextAuxD chunkSize fuel ((a :: t).drop chunkSize)

/-- The instrumented run of `split_text` on a whole text. -/
def splitTextD (text : List Char) (chunkSize : Nat) : List (List Char × Option Char) :=
  splitTextAuxD chunkSize text.length text

/-- Reassemble the chunks in order, reinserting after each chunk the single
boundary whitespace character that was consumed as its delimiter, if any. -/
def reconstruct (l : List (List Char × Option Char)) : List Char :=
  l.foldr (fun p acc => p.1 ++ (p.2.toList ++ acc)) []

/-- No two adjacent whitespace characters: the shape the normalizer leaves
after collapsing every whitespace run. -/
def noAdjacentWS : List Char → Bool
  | a :: b :: t => (!(pyIsSpace a && pyIsSpace b)) && noAdjacentWS (b :: t)
  | _ => true

/-- The first character, if any, is not whitespace. -/
def noHeadWS : List Char → Bool
  | [] => true
  | a :: _ => !pyIsSpace a

/-- Normalized text as `main` produces it: whitespace runs collapsed and
leading/trailing whitespace stripped. -/
def isNormalizedText (ts : List Char) : Bool :=
  noAdjacentWS ts && noHeadWS ts && noHeadWS ts.reverse

/-- Every full window of `chunkSize` consecutive characters contains a space
character: no whitespace-free run reaches the limit, so the forced mid-word
cut never fires. -/
def windowsHaveSpace (ts : List Char) (chunkSize : Nat) : Bool :=
  (List.range (ts.length + 1 - chunkSize)).all
    (fun i => ((ts.drop i).take chunkSize).any (fun c => c = ' '))

/-- One temporary-file event of the synthesis loop: creation or deletion of
the numbered per-chunk audio file. -/
inductive TmpEvent where
  | create (i : Nat)
  | remove (i : Nat)
deriving DecidableEq, Repr

/-- `process_text_to_speech` from `src/doc2speech.py`, with the remote API as
a black-box oracle `tts : text → audio bytes` and audio as `List Int`.  The
first loop (`for index, chunk in enumerate(text_chunks)`) issues one synthesis
request per chunk in order, writing temp file `index` for chunk `index`; the
second loop (`for file_path in audio_chunks`) reads each temp file back,
appends its audio to the combined track, and deletes the file.  The result is
the combined audio together with the ordered trace of file events. -/
def process_text_to_speech (tts : List Char → List Int)
    (text_chunks : List (List Char)) : List Int × List TmpEvent :=
  let audio_chunks : List (Nat × List Int) :=
    text_chunks.enum.map (fun p => (p.1, tts p.2))
  let createEvents := (List.range text_chunks.length).map TmpEvent.create
  let combined := (audio_chunks.map Prod.snd).flatten
  let removeEvents := audio_chunks.map (fun p => TmpEvent.remove p.1)
  (combined, createEvents ++ removeEvents)

/-- Number of temporary files on disk after processing a trace of file
events, starting from `s` files. -/
def liveCountFrom (s : Nat) (evs : List TmpEvent) : Nat :=
  evs.foldl (fun s e => match e with | .create _ => s + 1 | .remove _ => s - 1) s

/-- Number of temporary files on disk after processing a trace of file
events. -/
def liveCount (evs : List TmpEvent) : Nat := liveCountFrom 0 evs

/-- `is_url(path)` from `src/doc2speech.py`. -/
def is_url (path : List Char) : Bool :=
  "http://".data.isPrefixOf path || "https://".data.isPrefixOf path

/-- One entry of the EPUB container: an entry name and its raw bytes. -/
structure EpubEntry where
  name : List Char
  content : List Char
deriving DecidableEq, Repr

/-- Modelled from the spec: `list_html_files` is imported by `doc2speech.py`
from `epub_handler` but absent from `src/epub_handler.py`, which offers the
analogous `list_chapters` (keeping every item whose name ends with `html`).
Following the spec, it enumerates, in container order, the names of all
entries with markup extensions. -/
def list_html_files (book : List EpubEntry) : List (List Char) :=
  (book.filter (fun e => "html".data.isSuffixOf e.name)).map EpubEntry.name

/-- Modelled from the spec: `extract_html_content` is imported by
`doc2speech.py` but absent from `src/epub_handler.py` (which offers the
analogous `extract_chapter_content`); it returns the raw bytes of the named
entry. -/
def extract_html_content (book : List EpubEntry) (nm : List Char) : List Char :=
  match book.find? (fun e => e.name == nm) with
  | some e => e.content
  | none => []

/-- `pathlib.Path(...).stem` as used by the listing print of `get_content`:
the final path component without its extension (an extension starts at the
component's last dot, present only when that dot is neither the first nor the
last character of the component). -/
def pathStem (p : List Char) : List Char :=
  let nm := match lastMatchIdx (fun i => p.get? i = some '/') p.length with
    | some i => p.drop (i + 1)
    | none => p
  match lastMatchIdx (fun i => nm.get? i = some '.') nm.length with
  | some i => if 0 < i ∧ i < nm.length - 1 then nm.take i else nm
  | none => nm

/-- The listing printed by `get_content` for an EPUB
(`print(f"{i}: {Path(file_name).stem}")`, `enumerate(html_files, start=1)`):
pairs of the 1-based human-visible index and the stem of each markup entry
name, in container order. -/
def epubListing (book : List EpubEntry) : List (Nat × List Char) :=
  (list_html_files book).enum.map (fun p => (p.1 + 1, pathStem p.2))

/-- The selection loop of `get_content`: read numbers from the prompt until
one satisfies `doc_number - 1 in range(len(html_files))`; a rejected number
only prints a message and re-prompts; `none` models an exhausted stream. -/
def select_doc_number (n : Nat) : List Int → Option Int
  | [] => none
  | d :: rest => if 1 ≤ d ∧ d ≤ n then some d else select_doc_number n rest

/-- `get_content(input_path, user_agent)` from `src/doc2speech.py`, over an
explicit environment: `fetch` is the HTTP GET (black box, `user_agent` folded
into it), `readFile` the local file read (black box), `book` the entries of
the EPUB archive at the path, and `inputs` the stream of numbers typed at the
selection prompt. -/
def get_content (input_path : List Char) (fetch readFile : List Char → List Char)
    (book : List EpubEntry) (inputs : List Int) : Option (List Char) :=
  if is_url input_path then some (fetch input_path)
  else if ".epub".data.isSuffixOf input_path then
    match select_doc_number (list_html_files book).length inputs with
    | none => none
    | some d =>
        some (extract_html_content book
          ((list_html_files book).getD (d.toNat - 1) []))
  else some (readFile input_path)

/-- Temporary audio file name for one chunk:
`{audio_file_name}_part_{index}.mp3`. -/
def tempName (audio_file_name : List Char) (index : Nat) : List Char :=
  audio_file_name ++ "_part_".data ++ (Nat.repr index).data ++ ".mp3".data

/-- Output file name `{audio_file_name}.{audio_format}`. -/
def outName (audio_file_name fmt : List Char) : List Char :=
  audio_file_name ++ ".".data ++ fmt

/-- The observable effects of one run of the tail of `main`
(`src/doc2speech.py`): the synthesis requests issued, the audio files created
(temporary and final), and the exported output (name and combined audio), if
any. -/
structure PipelineRun where
  requests : List (List Char)
  filesWritten : List (List Char)
  exported : Option (List Char × List Int)
deriving DecidableEq, Repr

/-- The tail of `main` from the confirmation gate on: on yes, every chunk is
synthesized in order (each writing its temp file), and the combined audio is
exported to `{stem}.{audio_format}`; on no, nothing is requested or written
beyond a cancellation message; `none` models an exhausted input stream. -/
def main_run (tts : List Char → List Int) (text_chunks : List (List Char))
    (audio_file_name fmt : List Char) (confirmInputs : List (List Char)) :
    Option PipelineRun :=
  match user_confirmation confirmInputs with
  | none => none
  | some false => some { requests := [], filesWritten := [], exported := none }
  | some true =>
      some { requests := text_chunks
             filesWritten :=
               (List.range text_chunks.length).map (tempName audio_file_name) ++
                 [outName audio_file_name fmt]
             exported := some (outName audio_file_name fmt,
               (process_text_to_speech tts text_chunks).1) }

/-! ### Generic lemmas about the search primitives -/

theorem lastMatchIdx_some_spec (p : Nat → Bool) :
    ∀ n k : Nat, lastMatchIdx p n = some k →
      k < n ∧ p k = true ∧ ∀ j, j < n → p j = true → j ≤ k := by
  intro n
  induction n with
  | zero => intro k h; simp [lastMatchIdx] at h
  | succ n ih =>
    intro k h
    simp only [lastMatchIdx, List.range_succ, List.filter_append] at h
    by_cases hp : p n = true
    · have hfil : List.filter p [n] = [n] := by simp [hp]
      rw [hfil, List.getLast?_concat] at h
      obtain rfl : n = k := by injection h
      exact ⟨Nat.lt_succ_self n, hp, fun j hj _ => Nat.lt_succ_iff.mp hj⟩
    · have hfil : List.filter p [n] = [] := by
        simp [List.filter_cons, hp]
      rw [hfil, List.append_nil] at h
      obtain ⟨hk, hpk, hmax⟩ := ih k h
      refine ⟨Nat.lt_succ_of_lt hk, hpk, ?_⟩
      intro j hj hpj
      rcases Nat.lt_succ_iff_lt_or_eq.mp hj with hj' | rfl
      · exact hmax j hj' hpj
      · exact absurd hpj hp

theorem lastMatchIdx_none_spec (p : Nat → Bool) (n : Nat)
    (h : lastMatchIdx p n = none) : ∀ j, j < n → p j = false := by
  intro j hj
  by_contra hpj
  rw [Bool.not_eq_false] at hpj
  have hmem : j ∈ (List.range n).filter p :=
    List.mem_filter.mpr ⟨List.mem_range.mpr hj, hpj⟩
  simp only [lastMatchIdx] at h
  rw [List.getLast?_eq_none_iff.mp h] at hmem
  cases hmem

theorem lastMatchIdx_isSome (p : Nat → Bool) (n j : Nat) (hj : j < n)
    (hpj : p j = true) : (lastMatchIdx p n).isSome = true := by
  cases h : lastMatchIdx p n with
  | some k => rfl
  | none =>
    have := lastMatchIdx_none_spec p n h j hj
    rw [hpj] at this
    cases this

theorem isBoundary_iff (w : List Char) (i : Nat) :
    isBoundary w i = true ↔
      1 ≤ i ∧ ∃ a b, w.get? (i - 1) = some a ∧ w.get? i = some b ∧
        isSentenceTerm a = true ∧ pyIsSpace b = true := by
  unfold isBoundary
  cases h1 : w.get? (i - 1) <;> cases h2 : w.get? i <;>
    simp [h1, h2, Nat.one_le_iff_ne_zero, and_assoc]

theorem isBoundary_lt_length (w : List Char) (i : Nat)
    (h : isBoundary w i = true) : 1 ≤ i ∧ i < w.length := by
  obtain ⟨h1, a, b, _, hb, _, _⟩ := (isBoundary_iff w i).mp h
  refine ⟨h1, ?_⟩
  by_contra hlt
  rw [List.get?_eq_getElem?, List.getElem?_eq_none (Nat.le_of_not_lt hlt)] at hb
  cases hb

/-- One-step unfolding of the scanning loop on a nonempty remainder. -/
theorem splitTextAux_cons (chunkSize fuel : Nat) (a : Char) (t : List Char) :
    splitTextAux chunkSize (fuel + 1) (a :: t) =
      if (a :: t).length ≤ chunkSize then [a :: t]
      else
        match lastSentenceSplit ((a :: t).take chunkSize) with
        | some i =>
            pyStrip ((a :: t).take i) ::
              splitTextAux chunkSize fuel ((a :: t).drop (i + 1))
        | none =>
            match lastSpaceIdx ((a :: t).take chunkSize) with
            | some j =>
                pyStrip ((a :: t).take j) ::
                  splitTextAux chunkSize fuel ((a :: t).drop (j + 1))
            | none =>
                pyStrip ((a :: t).take chunkSize) ::
                  splitTextAux chunkSize fuel ((a :: t).drop chunkSize) := rfl

theorem pyStrip_length_le (l : List Char) : (pyStrip l).length ≤ l.length := by
  unfold pyStrip
  calc ((l.dropWhile pyIsSpace).reverse.dropWhile pyIsSpace).reverse.length
      = ((l.dropWhile pyIsSpace).reverse.dropWhile pyIsSpace).length := by
        rw [List.length_reverse]
    _ ≤ (l.dropWhile pyIsSpace).reverse.length :=
        ((l.dropWhile pyIsSpace).reverse.dropWhile_sublist pyIsSpace).length_le
    _ = (l.dropWhile pyIsSpace).length := by rw [List.length_reverse]
    _ ≤ l.length := (l.dropWhile_sublist pyIsSpace).length_le

theorem splitTextAux_length_le (chunkSize : Nat) :
    ∀ fuel rest, ∀ c ∈ splitTextAux chunkSize fuel rest, c.length ≤ chunkSize := by
  intro fuel
  induction fuel with
  | zero => intro rest c hc; cases rest <;> simp [splitTextAux] at hc
  | succ fuel ih =>
    intro rest c hc
    match rest with
    | [] => simp [splitTextAux] at hc
    | a :: t =>
      rw [splitTextAux_cons] at hc
      by_cases hle : (a :: t).length ≤ chunkSize
      · rw [if_pos hle] at hc
        simp only [List.mem_singleton] at hc
        subst hc; exact hle
      · rw [if_neg hle] at hc
        have hwlen : ((a :: t).take chunkSize).length = chunkSize := by
          rw [List.length_take]
          exact Nat.min_eq_left (Nat.le_of_lt (Nat.lt_of_not_le hle))
        cases hs : lastSentenceSplit ((a :: t).take chunkSize) with
        | some i =>
          rw [hs] at hc
          rcases List.mem_cons.mp hc with rfl | hmem
          · have hi := (lastMatchIdx_some_spec _ _ _ hs).1
            rw [hwlen] at hi
            calc (pyStrip ((a :: t).take i)).length
                ≤ ((a :: t).take i).length := pyStrip_length_le _
              _ ≤ i := List.length_take_le i (a :: t)
              _ ≤ chunkSize := Nat.le_of_lt hi
          · exact ih _ c hmem
        | none =>
          rw [hs] at hc
          cases hsp : lastSpaceIdx ((a :: t).take chunkSize) with
          | some j =>
            rw [hsp] at hc
            rcases List.mem_cons.mp hc with rfl | hmem
            · have hj := (lastMatchIdx_some_spec _ _ _ hsp).1
              rw [hwlen] at hj
              calc (pyStrip ((a :: t).take j)).length
                  ≤ ((a :: t).take j).length := pyStrip_length_le _
                _ ≤ j := List.length_take_le j (a :: t)
                _ ≤ chunkSize := Nat.le_of_lt hj
            · exact ih _ c hmem
          | none =>
            rw [hsp] at hc
            rcases List.mem_cons.mp hc with rfl | hmem
            · calc (pyStrip ((a :: t).take chunkSize)).length
                  ≤ ((a :: t).take chunkSize).length := pyStrip_length_le _
                _ ≤ chunkSize := List.length_take_le chunkSize (a :: t)
            · exact ih _ c hmem

/-- One-step unfolding of the instrumented scanning loop. -/
theorem splitTextAuxD_cons (chunkSize fuel : Nat) (a : Char) (t : List Char) :
    splitTextAuxD chunkSize (fuel + 1) (a :: t) =
      if (a :: t).length ≤ chunkSize then [(a :: t, none)]
      else
        match lastSentenceSplit ((a :: t).take chunkSize) with
        | some i =>
            (pyStrip ((a :: t).take i), (a :: t).get? i) ::
              splitTextAuxD chunkSize fuel ((a :: t).drop (i + 1))
        | none =>
            match lastSpaceIdx ((a :: t).take chunkSize) with
            | some j =>
                (pyStrip ((a :: t).take j), (a :: t).get? j) ::
                  splitTextAuxD chunkSize fuel ((a :: t).drop (j + 1))
            | none =>
                (pyStrip ((a :: t).take chunkSize), none) ::
                  splitTextAuxD chunkSize fuel ((a :: t).drop chunkSize) := rfl

theorem splitTextAuxD_sentence (chunkSize fuel : Nat) (a : Char) (t : List Char)
    (i : Nat) (hle : ¬((a :: t).length ≤ chunkSize))
    (hs : lastSentenceSplit ((a :: t).take chunkSize) = some i) :
    splitTextAuxD chunkSize (fuel + 1) (a :: t) =
      (pyStrip ((a :: t).take i), (a :: t).get? i) ::
        splitTextAuxD chunkSize fuel ((a :: t).drop (i + 1)) := by
  rw [splitTextAuxD_cons, if_neg hle, hs]

theorem splitTextAuxD_space (chunkSize fuel : Nat) (a : Char) (t : List Char)
    (j : Nat) (hle : ¬((a :: t).length ≤ chunkSize))
    (hs : lastSentenceSplit ((a :: t).take chunkSize) = none)
    (hsp : lastSpaceIdx ((a :: t).take chunkSize) = some j) :
    splitTextAuxD chunkSize (fuel + 1) (a :: t) =
      (pyStrip ((a :: t).take j), (a :: t).get? j) ::
        splitTextAuxD chunkSize fuel ((a :: t).drop (j + 1)) := by
  rw [splitTextAuxD_cons, if_neg hle, hs, hsp]

/-- The chunks of the instrumented loop are exactly those of the plain loop. -/
theorem splitTextAuxD_fst (chunkSize : Nat) :
    ∀ fuel rest, (splitTextAuxD chunkSize fuel rest).map Prod.fst =
      splitTextAux chunkSize fuel rest := by
  intro fuel
  induction fuel with
  | zero => intro rest; rfl
  | succ fuel ih =>
    intro rest
    match rest with
    | [] => rfl
    | a :: t =>
      rw [splitTextAuxD_cons, splitTextAux_cons]
      by_cases hle : (a :: t).length ≤ chunkSize
      · rw [if_pos hle, if_pos hle]; rfl
      · rw [if_neg hle, if_neg hle]
        split
        · rw [List.map_cons, ih]
        · split
          · rw [List.map_cons, ih]
          · rw [List.map_cons, ih]

theorem dropWhile_eq_self_of_head (l : List Char)
    (h : ∀ c, l.head? = some c → pyIsSpace c = false) :
    l.dropWhile pyIsSpace = l := by
  cases l with
  | nil => rfl
  | cons a t => rw [List.dropWhile_cons, if_neg (by simp [h a rfl])]

theorem pyStrip_eq_self (l : List Char)
    (hh : ∀ c, l.head? = some c → pyIsSpace c = false)
    (hl : ∀ c, l.getLast? = some c → pyIsSpace c = false) :
    pyStrip l = l := by
  unfold pyStrip
  rw [dropWhile_eq_self_of_head l hh,
    dropWhile_eq_self_of_head l.reverse
      (fun c hc => hl c (by rwa [List.head?_reverse] at hc)),
    List.reverse_reverse]

theorem isSentenceTerm_not_space (c : Char) (h : isSentenceTerm c = true) :
    pyIsSpace c = false := by
  unfold isSentenceTerm at h
  rcases Bool.or_eq_true_iff.mp h with h' | h'
  · rcases Bool.or_eq_true_iff.mp h' with h'' | h'' <;>
      (rw [of_decide_eq_true h'']; decide)
  · rw [of_decide_eq_true h']; decide

theorem noAdjacentWS_spec : ∀ l : List Char, noAdjacentWS l = true →
    ∀ k a b, l.get? k = some a → l.get? (k + 1) = some b →
      pyIsSpace a = true → pyIsSpace b = false := by
  intro l
  induction l with
  | nil => intro _ k a b ha; simp at ha
  | cons x t ih =>
    intro h k a b ha hb hsa
    cases t with
    | nil => cases k <;> simp at hb
    | cons y t' =>
      have h' : (!(pyIsSpace x && pyIsSpace y)) = true ∧ noAdjacentWS (y :: t') = true := by
        simpa [noAdjacentWS, Bool.and_eq_true] using h
      cases k with
      | zero =>
        simp only [List.get?_cons_succ, List.get?_cons_zero, Option.some.injEq] at ha hb
        subst ha; subst hb
        have := h'.1
        rw [hsa] at this
        simpa using this
      | succ k' =>
        exact ih h'.2 k' a b (by simpa using ha) (by simpa using hb) hsa

theorem windowsHaveSpace_spec (ts : List Char) (chunkSize : Nat)
    (hcs : 1 ≤ chunkSize) (h : windowsHaveSpace ts chunkSize = true)
    (m : Nat) (hm : chunkSize ≤ ts.length - m) :
    ' ' ∈ (ts.drop m).take chunkSize := by
  have hmem : m ∈ List.range (ts.length + 1 - chunkSize) :=
    List.mem_range.mpr (by omega)
  have hany := List.all_eq_true.mp h m hmem
  obtain ⟨c, hc, hce⟩ := List.any_eq_true.mp hany
  rwa [of_decide_eq_true hce] at hc

theorem reconstruct_cons (c : List Char) (d : Option Char)
    (l : List (List Char × Option Char)) :
    reconstruct ((c, d) :: l) = c ++ (d.toList ++ reconstruct l) := rfl

theorem get?_take_of_lt (l : List Char) (n k : Nat) (hk : k < n) :
    (l.take n).get? k = l.get? k := by
  rw [List.get?_eq_getElem?, List.get?_eq_getElem?, List.getElem?_take_of_lt hk]

theorem head?_drop (l : List Char) (k : Nat) : (l.drop k).head? = l.get? k := by
  rw [List.head?_eq_getElem?, List.getElem?_drop, Nat.add_zero, List.get?_eq_getElem?]

theorem getLast?_take (l : List Char) (n : Nat) (h1 : 1 ≤ n) (h2 : n ≤ l.length) :
    (l.take n).getLast? = l.get? (n - 1) := by
  rw [List.getLast?_eq_getElem?, List.length_take, Nat.min_eq_left h2,
    List.get?_eq_getElem?, List.getElem?_take_of_lt (by omega)]

theorem take_cons_drop (l : List Char) (i : Nat) (c : Char)
    (h : l.get? i = some c) : l.take i ++ c :: l.drop (i + 1) = l := by
  rw [List.get?_eq_getElem?] at h
  obtain ⟨hlt, hc⟩ := List.getElem?_eq_some_iff.mp h
  conv_rhs => rw [← List.take_append_drop i l]
  rw [List.drop_eq_getElem_cons hlt, hc]

theorem get?_lt_length (l : List Char) (n : Nat) (a : Char)
    (h : l.get? n = some a) : n < l.length := by
  rw [List.get?_eq_getElem?] at h
  exact (List.getElem?_eq_some_iff.mp h).1

theorem noHeadWS_spec (ts : List Char) (h : noHeadWS ts = true) :
    ∀ c, ts.head? = some c → pyIsSpace c = false := by
  intro c hc
  cases ts with
  | nil => cases hc
  | cons a t =>
    rw [List.head?_cons, Option.some.injEq] at hc
    subst hc
    simpa [noHeadWS] using h

theorem isNormalizedText_spec (ts : List Char) (h : isNormalizedText ts = true) :
    noAdjacentWS ts = true ∧
    (∀ c, ts.head? = some c → pyIsSpace c = false) ∧
    (∀ c, ts.getLast? = some c → pyIsSpace c = false) := by
  unfold isNormalizedText at h
  obtain ⟨⟨h1, h2⟩, h3⟩ := by simpa [Bool.and_eq_true] using h
  refine ⟨h1, noHeadWS_spec ts h2, ?_⟩
  intro c hc
  exact noHeadWS_spec ts.reverse h3 c (by rwa [List.head?_reverse])

/-- The itemized reconstruction invariant of the scanning loop: starting from
any offset `m` of a text with no adjacent whitespace, a non-whitespace
character at the offset, and a space in every full window, reassembling the
instrumented chunks with their consumed delimiters restores `text[m:]`
exactly, and no emitted chunk is empty. -/
theorem splitTextAuxD_reconstruct (chunkSize : Nat) (hcs : 1 ≤ chunkSize)
    (ts : List Char) (hadj : noAdjacentWS ts = true)
    (hwin : windowsHaveSpace ts chunkSize = true) :
    ∀ fuel m, ts.length - m ≤ fuel →
      (∀ c, (ts.drop m).head? = some c → pyIsSpace c = false) →
      reconstruct (splitTextAuxD chunkSize fuel (ts.drop m)) = ts.drop m ∧
      ∀ p ∈ splitTextAuxD chunkSize fuel (ts.drop m), p.1 ≠ [] := by
  intro fuel
  induction fuel with
  | zero =>
    intro m hf _
    have hnil : ts.drop m = [] := by
      have : (ts.drop m).length = 0 := by rw [List.length_drop]; omega
      exact List.eq_nil_of_length_eq_zero this
    rw [hnil]
    exact ⟨rfl, by intro p hp; simp [splitTextAuxD] at hp⟩
  | succ fuel ih =>
    intro m hf hhead
    cases hrest : ts.drop m with
    | nil => exact ⟨rfl, by intro p hp; simp [splitTextAuxD] at hp⟩
    | cons a t =>
      have hlen_eq : (a :: t).length = ts.length - m := by
        rw [← hrest, List.length_drop]
      have hget : ∀ k, (a :: t).get? k = ts.get? (m + k) := by
        intro k
        rw [← hrest, List.get?_eq_getElem?, List.get?_eq_getElem?, List.getElem?_drop]
      have hheada : pyIsSpace a = false := hhead a (by rw [hrest]; rfl)
      by_cases hle : (a :: t).length ≤ chunkSize
      · rw [splitTextAuxD_cons, if_pos hle]
        refine ⟨by simp [reconstruct], ?_⟩
        intro p hp
        simp only [List.mem_singleton] at hp
        subst hp
        simp
      · have hlt : chunkSize < (a :: t).length := Nat.lt_of_not_le hle
        have hwlen : ((a :: t).take chunkSize).length = chunkSize := by
          rw [List.length_take]
          exact Nat.min_eq_left (Nat.le_of_lt hlt)
        -- the window always contains a space, so the forced cut is impossible
        have hspmem : ' ' ∈ (a :: t).take chunkSize := by
          rw [← hrest]
          exact windowsHaveSpace_spec ts chunkSize hcs hwin m (by omega)
        obtain ⟨nsp, hnsp⟩ := List.mem_iff_getElem?.mp hspmem
        have hnsp' : ((a :: t).take chunkSize).get? nsp = some ' ' := by
          rwa [List.get?_eq_getElem?]
        have hnsplt : nsp < chunkSize := by
          have := get?_lt_length _ _ _ hnsp'
          rwa [hwlen] at this
        cases hso : lastSentenceSplit ((a :: t).take chunkSize) with
        | some i =>
          obtain ⟨hilt, hbi, -⟩ := lastMatchIdx_some_spec _ _ _ hso
          rw [hwlen] at hilt
          obtain ⟨h1i, aterm, bsp, hat, hbsp, hterm, hspace⟩ := (isBoundary_iff _ _).mp hbi
          have hat' : (a :: t).get? (i - 1) = some aterm := by
            rw [← get?_take_of_lt (a :: t) chunkSize (i - 1) (by omega)]; exact hat
          have hbsp' : (a :: t).get? i = some bsp := by
            rw [← get?_take_of_lt (a :: t) chunkSize i hilt]; exact hbsp
          have hstrip : pyStrip ((a :: t).take i) = (a :: t).take i := by
            refine pyStrip_eq_self _ ?_ ?_
            · obtain ⟨i', rfl⟩ : ∃ i', i = i' + 1 := ⟨i - 1, by omega⟩
              intro c hc
              rw [List.take_succ_cons, List.head?_cons, Option.some.injEq] at hc
              rw [← hc]; exact hheada
            · intro c hc
              rw [getLast?_take (a :: t) i h1i (by omega), hat',
                Option.some.injEq] at hc
              rw [← hc]
              exact isSentenceTerm_not_space aterm hterm
          have hdd : (a :: t).drop (i + 1) = ts.drop (m + (i + 1)) := by
            rw [← hrest, List.drop_drop]
          have hih := ih (m + (i + 1)) (by omega) ?_
          · rw [splitTextAuxD_sentence chunkSize fuel a t i hle hso]
            constructor
            · rw [reconstruct_cons, hstrip, hbsp', hdd, hih.1, ← hdd,
                Option.toList_some]
              exact take_cons_drop (a :: t) i bsp hbsp'
            · intro p hp
              rcases List.mem_cons.mp hp with rfl | hmem
              · obtain ⟨i', rfl⟩ : ∃ i', i = i' + 1 := ⟨i - 1, by omega⟩
                rw [hstrip]
                simp
              · rw [hdd] at hmem
                exact hih.2 p hmem
          · intro c hc
            rw [head?_drop] at hc
            have hts_bsp : ts.get? (m + i) = some bsp := by rw [← hget]; exact hbsp'
            have : m + (i + 1) = (m + i) + 1 := by omega
            rw [this] at hc
            exact noAdjacentWS_spec ts hadj (m + i) bsp c hts_bsp hc hspace
        | none =>
          cases hspo : lastSpaceIdx ((a :: t).take chunkSize) with
          | none =>
            exfalso
            have hsome := lastMatchIdx_isSome
              (fun i => ((a :: t).take chunkSize).get? i = some ' ')
              ((a :: t).take chunkSize).length nsp (by rw [hwlen]; exact hnsplt)
              (by rw [decide_eq_true_iff]; exact hnsp')
            rw [lastSpaceIdx] at hspo
            rw [hspo] at hsome
            cases hsome
          | some j =>
            obtain ⟨hjlt, hpj, -⟩ := lastMatchIdx_some_spec _ _ _ hspo
            rw [hwlen] at hjlt
            have hj : ((a :: t).take chunkSize).get? j = some ' ' :=
              of_decide_eq_true hpj
            have hj' : (a :: t).get? j = some ' ' := by
              rw [← get?_take_of_lt (a :: t) chunkSize j hjlt]; exact hj
            have h1j : 1 ≤ j := by
              rcases Nat.eq_zero_or_pos j with rfl | h
              · rw [List.get?_cons_zero, Option.some.injEq] at hj'
                rw [hj'] at hheada
                simp [pyIsSpace] at hheada
              · exact h
            obtain ⟨c', hc'⟩ : ∃ c, (a :: t).get? (j - 1) = some c := by
              rw [List.get?_eq_getElem?]
              exact ⟨_, List.getElem?_eq_getElem (by simp at hlt ⊢; omega)⟩
            have hc'ns : pyIsSpace c' = false := by
              by_contra hcs'
              rw [Bool.not_eq_false] at hcs'
              have hts1 : ts.get? (m + (j - 1)) = some c' := by rw [← hget]; exact hc'
              have hts2 : ts.get? (m + (j - 1) + 1) = some ' ' := by
                have : m + (j - 1) + 1 = m + j := by omega
                rw [this, ← hget]; exact hj'
              have := noAdjacentWS_spec ts hadj (m + (j - 1)) c' ' ' hts1 hts2 hcs'
              simp [pyIsSpace] at this
            have hstrip : pyStrip ((a :: t).take j) = (a :: t).take j := by
              refine pyStrip_eq_self _ ?_ ?_
              · obtain ⟨j', rfl⟩ : ∃ j', j = j' + 1 := ⟨j - 1, by omega⟩
                intro c hc
                rw [List.take_succ_cons, List.head?_cons, Option.some.injEq] at hc
                rw [← hc]; exact hheada
              · intro c hc
                rw [getLast?_take (a :: t) j h1j (by omega), hc',
                  Option.some.injEq] at hc
                rw [← hc]; exact hc'ns
            have hdd : (a :: t).drop (j + 1) = ts.drop (m + (j + 1)) := by
              rw [← hrest, List.drop_drop]
            have hih := ih (m + (j + 1)) (by omega) ?_
            · rw [splitTextAuxD_space chunkSize fuel a t j hle hso hspo]
              constructor
              · rw [reconstruct_cons, hstrip, hj', hdd, hih.1, ← hdd,
                  Option.toList_some]
                exact take_cons_drop (a :: t) j ' ' hj'
              · intro p hp
                rcases List.mem_cons.mp hp with rfl | hmem
                · obtain ⟨j', rfl⟩ : ∃ j', j = j' + 1 := ⟨j - 1, by omega⟩
                  rw [hstrip]
                  simp
                · rw [hdd] at hmem
                  exact hih.2 p hmem
            · intro c hc
              rw [head?_drop] at hc
              have hts_sp : ts.get? (m + j) = some ' ' := by rw [← hget]; exact hj'
              have : m + (j + 1) = (m + j) + 1 := by omega
              rw [this] at hc
              exact noAdjacentWS_spec ts hadj (m + j) ' ' c hts_sp hc (by decide)

theorem liveCountFrom_append (s : Nat) (l1 l2 : List TmpEvent) :
    liveCountFrom s (l1 ++ l2) = liveCountFrom (liveCountFrom s l1) l2 :=
  List.foldl_append ..

theorem liveCountFrom_creates (l : List Nat) :
    ∀ s, liveCountFrom s (l.map TmpEvent.create) = s + l.length := by
  induction l with
  | nil => intro s; rfl
  | cons a t ih =>
    intro s
    rw [List.map_cons]
    show liveCountFrom (s + 1) (t.map TmpEvent.create) = s + (a :: t).length
    rw [ih (s + 1)]
    simp
    omega

theorem liveCountFrom_removes (l : List Nat) :
    ∀ s, liveCountFrom s (l.map TmpEvent.remove) = s - l.length := by
  induction l with
  | nil => intro s; rfl
  | cons a t ih =>
    intro s
    rw [List.map_cons]
    show liveCountFrom (s - 1) (t.map TmpEvent.remove) = s - (a :: t).length
    rw [ih (s - 1)]
    simp
    omega

/-- The combined track of the synthesis loop is the in-order concatenation of
the chunks' synthesized audio. -/
theorem process_tts_combined (tts : List Char → List Int)
    (text_chunks : List (List Char)) :
    (process_text_to_speech tts text_chunks).1 = (text_chunks.map tts).flatten := by
  show ((text_chunks.enum.map (fun p => (p.1, tts p.2))).map Prod.snd).flatten = _
  rw [List.map_map]
  have h1 : (Prod.snd ∘ fun p : Nat × List Char => (p.1, tts p.2)) =
      tts ∘ Prod.snd := rfl
  rw [h1, ← List.map_map, List.enum_map_snd]

/-- The file-event trace of the synthesis loop: all creations (one per chunk,
in index order) followed by all deletions (one per chunk, in index order). -/
theorem process_tts_events (tts : List Char → List Int)
    (text_chunks : List (List Char)) :
    (process_text_to_speech tts text_chunks).2 =
      (List.range text_chunks.length).map TmpEvent.create ++
        (List.range text_chunks.length).map TmpEvent.remove := by
  show _ ++ (text_chunks.enum.map (fun p => (p.1, tts p.2))).map
      (fun p => TmpEvent.remove p.1) = _
  congr 1
  rw [List.map_map]
  have h1 : ((fun p : Nat × List Int => TmpEvent.remove p.1) ∘
      fun p : Nat × List Char => (p.1, tts p.2)) =
      TmpEvent.remove ∘ Prod.fst := rfl
  rw [h1, ← List.map_map, List.enum_map_fst]

/-! ### Claim theorems -/

/-- C1: for every input text and every configured limit ≥ 1, every chunk
returned by `split_text` has length at most the limit; in particular the
forced cut of the single-unbreakable-run fallback is made exactly at the
limit, so no chunk ever exceeds it. -/
theorem split_text_chunk_length_le (text : List Char) (chunkSize : Nat)
    (hcs : 1 ≤ chunkSize) (c : List Char) (hc : c ∈ split_text text chunkSize) :
    c.length ≤ chunkSize :=
  splitTextAux_length_le chunkSize text.length text c (List.mem_filter.mp hc).1

theorem split_text_chunk_length_le_witness :
    (1 ≤ 20 ∧ "Hello world.".data ∈ split_text "Hello world. This is a test! Is it working?".data 20) ∧
      "Hello world.".data.length ≤ 20 :=
  ⟨⟨by decide, by decide⟩,
    split_text_chunk_length_le "Hello world. This is a test! Is it working?".data 20
      (by decide) "Hello world.".data (by decide)⟩

/-- C6: `split_text` on the spec's concrete scenario
`"Hello world. This is a test! Is it working?"` with limit 20 returns exactly
the three chunks `["Hello world.", "This is a test!", "Is it working?"]`. -/
theorem split_text_concrete_scenario :
    split_text "Hello world. This is a test! Is it working?".data 20 =
      ["Hello world.".data, "This is a test!".data, "Is it working?".data] := by decide

/-- C2 is false as stated: `"aaaab ccc dd"` is normalized (single spaces,
stripped ends) and the limit 5 is ≥ 1, yet reassembling the returned chunks
with every consumed boundary delimiter reinserted does not reproduce the
text — the space after the forced cut of `"aaaab"` is removed by `strip()`
without having been consumed as a delimiter. -/
theorem split_text_reconstruct_counterexample :
    (1 ≤ 5 ∧ isNormalizedText "aaaab ccc dd".data = true) ∧
    split_text "aaaab ccc dd".data 5 = (splitTextD "aaaab ccc dd".data 5).map Prod.fst ∧
    reconstruct (splitTextD "aaaab ccc dd".data 5) ≠ "aaaab ccc dd".data := by decide

/-- C2 (amended): for normalized input text (whitespace runs collapsed,
ends stripped) in which additionally every window of `chunkSize` consecutive
characters contains a space — so no whitespace-free run reaches the limit and
the forced mid-word cut never fires — the chunks returned by `split_text` are
exactly the instrumented chunks, and concatenating them in order while
reinserting the single boundary whitespace character consumed as each
delimiter reproduces the original text exactly. -/
theorem split_text_reconstruct (ts : List Char) (chunkSize : Nat)
    (hcs : 1 ≤ chunkSize) (hnorm : isNormalizedText ts = true)
    (hwin : windowsHaveSpace ts chunkSize = true) :
    split_text ts chunkSize = (splitTextD ts chunkSize).map Prod.fst ∧
    reconstruct (splitTextD ts chunkSize) = ts := by
  obtain ⟨hadj, hhead, hlast⟩ := isNormalizedText_spec ts hnorm
  have key := splitTextAuxD_reconstruct chunkSize hcs ts hadj hwin ts.length 0
    (by omega) (by intro c hc; rw [List.drop_zero] at hc; exact hhead c hc)
  rw [List.drop_zero] at key
  refine ⟨?_, key.1⟩
  unfold split_text splitTextD
  rw [← splitTextAuxD_fst chunkSize ts.length ts]
  apply List.filter_eq_self.mpr
  intro c hc
  obtain ⟨p, hp, hpc⟩ := List.mem_map.mp hc
  have hne := key.2 p hp
  rw [hpc] at hne
  simp [List.isEmpty_iff, hne]

theorem split_text_reconstruct_thm_witness :
    (1 ≤ 20 ∧ isNormalizedText "Hello world. This is a test! Is it working?".data = true ∧
      windowsHaveSpace "Hello world. This is a test! Is it working?".data 20 = true) ∧
    (split_text "Hello world. This is a test! Is it working?".data 20 =
        (splitTextD "Hello world. This is a test! Is it working?".data 20).map Prod.fst ∧
      reconstruct (splitTextD "Hello world. This is a test! Is it working?".data 20) =
        "Hello world. This is a test! Is it working?".data) :=
  ⟨⟨by decide, by decide, by decide⟩,
    split_text_reconstruct "Hello world. This is a test! Is it working?".data 20
      (by decide) (by decide) (by decide)⟩

/-- C9: the cost estimator is the pure function
`cost = total_chars * price_per_1k / 1000` (summing the chunk lengths), and it
is linear: `estimate (2 * N) p = 2 * estimate N p` for every character count
`N` and every price `p` (in particular every `p ≥ 0`). -/
theorem calculate_cost_linear :
    (∀ (chunks : List (List Char)) (p : ℚ),
        calculate_cost chunks p = estimate ((chunks.map List.length).sum) p) ∧
    (∀ (N : Nat) (p : ℚ), estimate (2 * N) p = 2 * estimate N p) := by
  refine ⟨fun chunks p => rfl, fun N p => ?_⟩
  unfold estimate
  push_cast
  ring

/-- One-step unfolding of the confirmation prompt loop. -/
theorem user_confirmation_cons (s : List Char) (rest : List (List Char)) :
    user_confirmation (s :: rest) =
      if pyStrip (pyLower s) ∈ [([] : List Char), "yes".data, "y".data] then some true
      else if pyStrip (pyLower s) ∈ ["no".data, "n".data] then some false
      else user_confirmation rest := rfl

/-- C7: the confirmation prompt treats empty input as yes, treats `no` and `n`
as a definite no (the cancellation transition), and rejects any other input by
repeating the prompt on the rest of the input stream. -/
theorem user_confirmation_semantics :
    (∀ rest, user_confirmation ([] :: rest) = some true) ∧
    (∀ rest, user_confirmation ("no".data :: rest) = some false) ∧
    (∀ rest, user_confirmation ("n".data :: rest) = some false) ∧
    (∀ (s : List Char) (rest : List (List Char)),
        pyStrip (pyLower s) ∉ [([] : List Char), "yes".data, "y".data] →
        pyStrip (pyLower s) ∉ ["no".data, "n".data] →
        user_confirmation (s :: rest) = user_confirmation rest) := by
  refine ⟨fun rest => rfl, fun rest => rfl, fun rest => rfl, ?_⟩
  intro s rest h1 h2
  rw [user_confirmation_cons, if_neg h1, if_neg h2]

theorem user_confirmation_semantics_witness :
    (pyStrip (pyLower "maybe".data) ∉ [([] : List Char), "yes".data, "y".data] ∧
      pyStrip (pyLower "maybe".data) ∉ ["no".data, "n".data]) ∧
    user_confirmation ["maybe".data, "n".data] = user_confirmation ["n".data] :=
  ⟨⟨by decide, by decide⟩,
    user_confirmation_semantics.2.2.2 "maybe".data ["n".data] (by decide) (by decide)⟩

/-- C10: the scanning loop of `split_text` terminates whenever the configured
limit is at least 1 (with enough fuel the result no longer depends on the fuel
bound, because every iteration strictly shortens the remaining text), and the
precondition is required: with limit 0 an iteration on a nonempty remainder
emits an empty chunk and leaves the remainder unchanged, so the loop never
makes progress. -/
theorem split_text_terminates :
    (∀ (chunkSize fuel fuel' : Nat) (ts : List Char), 1 ≤ chunkSize →
        ts.length ≤ fuel → ts.length ≤ fuel' →
        splitTextAux chunkSize fuel ts = splitTextAux chunkSize fuel' ts) ∧
    (∀ (a : Char) (t : List Char) (fuel : Nat),
        splitTextAux 0 (fuel + 1) (a :: t) = [] :: splitTextAux 0 fuel (a :: t)) := by
  constructor
  · intro chunkSize fuel fuel' ts hcs h1 h2
    have key : ∀ n ts fuel fuel', ts.length ≤ n → ts.length ≤ fuel →
        ts.length ≤ fuel' →
        splitTextAux chunkSize fuel ts = splitTextAux chunkSize fuel' ts := by
      intro n
      induction n with
      | zero =>
        intro ts fuel fuel' hn _ _
        have : ts = [] := List.eq_nil_of_length_eq_zero (Nat.le_zero.mp hn)
        subst this
        cases fuel <;> cases fuel' <;> rfl
      | succ n ihn =>
        intro ts fuel fuel' hn hf hf'
        match ts, fuel, fuel' with
        | [], fuel, fuel' => cases fuel <;> cases fuel' <;> rfl
        | a :: t, 0, _ => exact absurd hf (by simp)
        | a :: t, fuel + 1, 0 => exact absurd hf' (by simp)
        | a :: t, fuel + 1, fuel' + 1 =>
          rw [splitTextAux_cons, splitTextAux_cons]
          by_cases hle : (a :: t).length ≤ chunkSize
          · rw [if_pos hle, if_pos hle]
          · rw [if_neg hle, if_neg hle]
            have hlen : chunkSize < (a :: t).length := Nat.lt_of_not_le hle
            have hlen' : (a :: t).length = t.length + 1 := by simp
            split
            · rw [ihn _ fuel fuel'
                (by rw [List.length_drop]; omega)
                (by rw [List.length_drop]; omega)
                (by rw [List.length_drop]; omega)]
            · split
              · rw [ihn _ fuel fuel'
                  (by rw [List.length_drop]; omega)
                  (by rw [List.length_drop]; omega)
                  (by rw [List.length_drop]; omega)]
              · rw [ihn _ fuel fuel'
                  (by rw [List.length_drop]; omega)
                  (by rw [List.length_drop]; omega)
                  (by rw [List.length_drop]; omega)]
    exact key ts.length ts fuel fuel' le_rfl h1 h2
  · intro a t fuel
    rw [splitTextAux_cons, if_neg (by simp)]
    rfl

/-- C5: whenever the window of the remaining text contains a
sentence-terminator-followed-by-whitespace boundary, the scanning loop of
`split_text` takes the sentence branch and cuts exactly at the last such
boundary of the window: the cut index is itself a boundary, every boundary
index `j` of the window satisfies `j ≤` the cut index (never an earlier
sentence boundary), and the emitted chunk is the stripped prefix up to the cut
with scanning resuming just past the consumed whitespace (never a mere word
boundary). -/
theorem split_text_cuts_at_last_boundary (ts : List Char) (chunkSize fuel j : Nat)
    (hcs : 1 ≤ chunkSize) (hlen : chunkSize < ts.length)
    (hj : isBoundary (ts.take chunkSize) j = true) :
    (lastSentenceSplit (ts.take chunkSize)).isSome = true ∧
    isBoundary (ts.take chunkSize) ((lastSentenceSplit (ts.take chunkSize)).getD 0) = true ∧
    j ≤ (lastSentenceSplit (ts.take chunkSize)).getD 0 ∧
    splitTextAux chunkSize (fuel + 1) ts =
      pyStrip (ts.take ((lastSentenceSplit (ts.take chunkSize)).getD 0)) ::
        splitTextAux chunkSize fuel
          (ts.drop ((lastSentenceSplit (ts.take chunkSize)).getD 0 + 1)) := by
  obtain ⟨h1j, hjlt⟩ := isBoundary_lt_length _ _ hj
  have hsome : (lastSentenceSplit (ts.take chunkSize)).isSome = true :=
    lastMatchIdx_isSome (isBoundary (ts.take chunkSize)) (ts.take chunkSize).length j hjlt hj
  obtain ⟨k, hk⟩ := Option.isSome_iff_exists.mp hsome
  obtain ⟨hklt, hpk, hmax⟩ := lastMatchIdx_some_spec _ _ _ hk
  cases ts with
  | nil => simp at hlen
  | cons a t =>
    refine ⟨hsome, ?_, ?_, ?_⟩
    · rw [hk, Option.getD_some]; exact hpk
    · rw [hk, Option.getD_some]; exact hmax j hjlt hj
    · rw [splitTextAux_cons, if_neg (Nat.not_le_of_lt hlen), hk, Option.getD_some]

theorem split_text_cuts_at_last_boundary_witness :
    ((1 ≤ 20 ∧ 20 < "Hello world. This is a test! Is it working?".data.length) ∧
      isBoundary ("Hello world. This is a test! Is it working?".data.take 20) 12 = true) ∧
    ((lastSentenceSplit ("Hello world. This is a test! Is it working?".data.take 20)).isSome = true ∧
      isBoundary ("Hello world. This is a test! Is it working?".data.take 20)
        ((lastSentenceSplit ("Hello world. This is a test! Is it working?".data.take 20)).getD 0) = true ∧
      12 ≤ (lastSentenceSplit ("Hello world. This is a test! Is it working?".data.take 20)).getD 0 ∧
      splitTextAux 20 (42 + 1) "Hello world. This is a test! Is it working?".data =
        pyStrip ("Hello world. This is a test! Is it working?".data.take
            ((lastSentenceSplit ("Hello world. This is a test! Is it working?".data.take 20)).getD 0)) ::
          splitTextAux 20 42
            ("Hello world. This is a test! Is it working?".data.drop
              ((lastSentenceSplit ("Hello world. This is a test! Is it working?".data.take 20)).getD 0 + 1))) :=
  ⟨⟨⟨by decide, by decide⟩, by decide⟩,
    split_text_cuts_at_last_boundary "Hello world. This is a test! Is it working?".data
      20 42 12 (by decide) (by decide) (by decide)⟩

theorem split_text_terminates_witness :
    ((1 ≤ 1 ∧ "ab cd".data.length ≤ 7 ∧ "ab cd".data.length ≤ 9) ∧
      splitTextAux 1 7 "ab cd".data = splitTextAux 1 9 "ab cd".data) ∧
    splitTextAux 0 (0 + 1) ['a'] = [] :: splitTextAux 0 0 ['a'] :=
  ⟨⟨⟨by decide, by decide, by decide⟩,
      split_text_terminates.1 1 7 9 "ab cd".data (by decide) (by decide) (by decide)⟩,
    split_text_terminates.2 'a' [] 0⟩

/-- C3 is false as stated: with two chunks, the synthesis loop creates both
temporary files during the first (request) loop before the combining loop
deletes either, so after the first two events of the trace two per-chunk
temporary files exist on disk simultaneously. -/
theorem process_tts_counterexample :
    (process_text_to_speech (fun _ => []) [['a'], ['b']]).2 =
      [TmpEvent.create 0, TmpEvent.create 1, TmpEvent.remove 0, TmpEvent.remove 1] ∧
    liveCount ((process_text_to_speech (fun _ => []) [['a'], ['b']]).2.take 2) = 2 ∧
    1 < liveCount ((process_text_to_speech (fun _ => []) [['a'], ['b']]).2.take 2) := by
  decide

/-- C3 (amended): the synthesis phase first writes every per-chunk temporary
file (one creation per chunk, in index order); the combining pass then deletes
each file right after appending its audio (one deletion per chunk, in index
order).  The combined track is the in-order concatenation of the chunks'
audio and no temporary file remains at the end, but at the peak — once all
chunks are synthesized — the number of coexisting temporary files equals the
number of chunks, not one. -/
theorem process_tts_two_phase_cleanup (tts : List Char → List Int)
    (chunks : List (List Char)) :
    (process_text_to_speech tts chunks).1 = (chunks.map tts).flatten ∧
    (process_text_to_speech tts chunks).2 =
      (List.range chunks.length).map TmpEvent.create ++
        (List.range chunks.length).map TmpEvent.remove ∧
    liveCount ((process_text_to_speech tts chunks).2.take chunks.length) =
      chunks.length ∧
    liveCount (process_text_to_speech tts chunks).2 = 0 := by
  refine ⟨process_tts_combined tts chunks, process_tts_events tts chunks, ?_, ?_⟩
  · rw [process_tts_events]
    have hlen : ((List.range chunks.length).map TmpEvent.create).length =
        chunks.length := by simp
    rw [List.take_left' hlen]
    show liveCountFrom 0 ((List.range chunks.length).map TmpEvent.create) = _
    rw [liveCountFrom_creates]
    simp
  · rw [process_tts_events]
    show liveCountFrom 0 (_ ++ _) = 0
    rw [liveCountFrom_append, liveCountFrom_creates, liveCountFrom_removes]
    simp

/-- C8: with confirmation input `"n"` the pipeline issues zero synthesis
requests and writes zero files — no audio file of any kind is created — and
on every run either the full combined audio (the in-order concatenation of
every chunk's synthesized audio) is exported, or no file is written at all. -/
theorem main_run_cancellation (tts : List Char → List Int)
    (text_chunks : List (List Char)) (audio_file_name fmt : List Char) :
    (∀ rest, main_run tts text_chunks audio_file_name fmt ("n".data :: rest) =
        some { requests := [], filesWritten := [], exported := none }) ∧
    (∀ confirmInputs run,
        main_run tts text_chunks audio_file_name fmt confirmInputs = some run →
        run.exported = some (outName audio_file_name fmt, (text_chunks.map tts).flatten) ∨
        run.filesWritten = []) := by
  constructor
  · intro rest
    rfl
  · intro confirmInputs run h
    unfold main_run at h
    cases hu : user_confirmation confirmInputs with
    | none => rw [hu] at h; cases h
    | some b =>
      cases b
      · rw [hu] at h
        injection h with h
        subst h
        right
        rfl
      · rw [hu] at h
        injection h with h
        subst h
        left
        show some (outName audio_file_name fmt,
          (process_text_to_speech tts text_chunks).1) = _
        rw [process_tts_combined]

theorem main_run_cancellation_witness :
    main_run (fun _ => ([] : List Int)) [['a']] "x".data "mp3".data ["n".data] =
      some { requests := [], filesWritten := [], exported := none } ∧
    (({ requests := [], filesWritten := [], exported := none } : PipelineRun).exported =
        some (outName "x".data "mp3".data,
          ([['a']].map (fun _ => ([] : List Int))).flatten) ∨
      ({ requests := [], filesWritten := [], exported := none } : PipelineRun).filesWritten = []) :=
  ⟨(main_run_cancellation (fun _ => ([] : List Int)) [['a']] "x".data "mp3".data).1 [],
    (main_run_cancellation (fun _ => ([] : List Int)) [['a']] "x".data "mp3".data).2
      ["n".data] { requests := [], filesWritten := [], exported := none } (by rfl)⟩

theorem enumFrom_listing_fst (f : List Char → List Char) :
    ∀ (l : List (List Char)) (s : Nat),
      ((l.enumFrom s).map (fun p => (p.1 + 1, f p.2))).map Prod.fst =
        List.range' (s + 1) l.length := by
  intro l
  induction l with
  | nil => intro s; rfl
  | cons a t ih =>
    intro s
    rw [List.enumFrom_cons, List.map_cons, List.map_cons]
    show (s + 1) :: _ = List.range' (s + 1) (t.length + 1)
    rw [List.range'_succ, ih (s + 1)]

theorem select_doc_number_cons (n : Nat) (d : Int) (rest : List Int) :
    select_doc_number n (d :: rest) =
      if 1 ≤ d ∧ d ≤ n then some d else select_doc_number n rest := rfl

/-- C4: for an input path with the container-format extension `.epub` (and not
a URL), the resolver enumerates the container's markup entries — exactly the
entries whose names end in `html`, in container order — presents them as a
listing with 1-based human-visible indices, accepts a 1-based selection and
returns the raw bytes of the selected entry, and re-prompts non-fatally (the
loop goes on with the rest of the input stream) whenever the selection is out
of range. -/
theorem get_content_epub_selection (input_path : List Char)
    (fetch readFile : List Char → List Char) (book : List EpubEntry)
    (e : EpubEntry) (nm : List Char) (d : Int) (rest : List Int)
    (hpath : ".epub".data.isSuffixOf input_path = true)
    (hurl : is_url input_path = false) :
    ((epubListing book).map Prod.fst =
        List.range' 1 (list_html_files book).length) ∧
    (e ∈ book → "html".data.isSuffixOf e.name = true →
        e.name ∈ list_html_files book) ∧
    (nm ∈ list_html_files book →
        "html".data.isSuffixOf nm = true ∧ nm ∈ book.map EpubEntry.name) ∧
    ((1 ≤ d ∧ d ≤ (list_html_files book).length) →
        get_content input_path fetch readFile book (d :: rest) =
          some (extract_html_content book
            ((list_html_files book).getD (d.toNat - 1) []))) ∧
    (¬(1 ≤ d ∧ d ≤ (list_html_files book).length) →
        get_content input_path fetch readFile book (d :: rest) =
          get_content input_path fetch readFile book rest) := by
  have hn : ¬(is_url input_path = true) := by rw [hurl]; simp
  refine ⟨?_, ?_, ?_, ?_, ?_⟩
  · exact enumFrom_listing_fst pathStem (list_html_files book) 0
  · intro he hsuf
    exact List.mem_map.mpr ⟨e, List.mem_filter.mpr ⟨he, hsuf⟩, rfl⟩
  · intro hnm
    obtain ⟨e', he', rfl⟩ := List.mem_map.mp hnm
    obtain ⟨hb, hs⟩ := List.mem_filter.mp he'
    exact ⟨hs, List.mem_map.mpr ⟨e', hb, rfl⟩⟩
  · intro hd
    unfold get_content
    rw [if_neg hn, if_pos hpath, select_doc_number_cons, if_pos hd]
  · intro hd
    unfold get_content
    rw [if_neg hn, if_pos hpath, if_neg hn, if_pos hpath,
      select_doc_number_cons, if_neg hd]

theorem get_content_epub_selection_witness :
    (".epub".data.isSuffixOf "book.epub".data = true ∧
      is_url "book.epub".data = false) ∧
    (((epubListing [⟨"a.html".data, "A".data⟩, ⟨"b.jpg".data, "B".data⟩]).map Prod.fst =
        List.range' 1
          (list_html_files [⟨"a.html".data, "A".data⟩, ⟨"b.jpg".data, "B".data⟩]).length) ∧
      ((⟨"a.html".data, "A".data⟩ : EpubEntry) ∈
          [(⟨"a.html".data, "A".data⟩ : EpubEntry), ⟨"b.jpg".data, "B".data⟩] →
        "html".data.isSuffixOf "a.html".data = true →
        "a.html".data ∈
          list_html_files [⟨"a.html".data, "A".data⟩, ⟨"b.jpg".data, "B".data⟩]) ∧
      ("a.html".data ∈
          list_html_files [⟨"a.html".data, "A".data⟩, ⟨"b.jpg".data, "B".data⟩] →
        "html".data.isSuffixOf "a.html".data = true ∧
        "a.html".data ∈
          [(⟨"a.html".data, "A".data⟩ : EpubEntry), ⟨"b.jpg".data, "B".data⟩].map
            EpubEntry.name) ∧
      ((1 ≤ (1 : Int) ∧ (1 : Int) ≤
          (list_html_files [⟨"a.html".data, "A".data⟩, ⟨"b.jpg".data, "B".data⟩]).length) →
        get_content "book.epub".data (fun _ => []) (fun _ => [])
            [⟨"a.html".data, "A".data⟩, ⟨"b.jpg".data, "B".data⟩] [1] =
          some (extract_html_content
            [⟨"a.html".data, "A".data⟩, ⟨"b.jpg".data, "B".data⟩]
            ((list_html_files
                [⟨"a.html".data, "A".data⟩, ⟨"b.jpg".data, "B".data⟩]).getD
              ((1 : Int).toNat - 1) []))) ∧
      (¬(1 ≤ (1 : Int) ∧ (1 : Int) ≤
          (list_html_files [⟨"a.html".data, "A".data⟩, ⟨"b.jpg".data, "B".data⟩]).length) →
        get_content "book.epub".data (fun _ => []) (fun _ => [])
            [⟨"a.html".data, "A".data⟩, ⟨"b.jpg".data, "B".data⟩] [1] =
          get_content "book.epub".data (fun _ => []) (fun _ => [])
            [⟨"a.html".data, "A".data⟩, ⟨"b.jpg".data, "B".data⟩] [])) :=
  ⟨⟨by decide, by decide⟩,
    get_content_epub_selection "book.epub".data (fun _ => []) (fun _ => [])
      [⟨"a.html".data, "A".data⟩, ⟨"b.jpg".data, "B".data⟩]
      ⟨"a.html".data, "A".data⟩ "a.html".data 1 [] (by decide) (by decide)⟩
